import Mathlib

/-!
Verification of the josh history-projection engine.

This file gives a shallow embedding of the projection core found in
src/scratch.rs (the commit rewriter, the cached projector
apply_view_cached, and the unapply engine unapply_view) and of the
marker overlay logic found in src/graphql.rs (format_marker,
RepositoryMut.meta, Markers.data), together with theorems about the
embedded definitions.

Modelling conventions:

- git oids are opaque content addresses; we model them as naturals.
- Only commit objects are modelled explicitly.  Tree and blob objects
  are immutable and content-addressed in git, so a tree is represented
  by its oid alone, and the filter functions of the View trait become
  pure functions of tree oids and commit records (writing new commits
  never changes an existing tree or commit object).
- The object store is an association list together with a counter that
  yields fresh oids.  Writing a commit is content-addressed exactly as
  in git: writing a commit whose content already exists returns the
  existing oid and leaves the store unchanged, otherwise a fresh oid is
  allocated.  Well-formed stores (RepoWF) have fresh counters, at most
  one binding per oid, and at most one oid per content.
- HashMap insert/lookup is modelled by consing onto an association list
  and taking the first binding, which has the same overwrite semantics.
- Rust panics (expect/unwrap and the unchecked backward_map[..] index)
  are modelled by returning none, and so is fuel exhaustion of the
  recursion; theorems about successful runs are therefore stated on
  hypotheses of the form f args = some result.
- The revwalk with sorting REVERSE | TOPOLOGICAL is modelled by a
  fuelled depth-first traversal that emits parents before children and
  never revisits an oid; hide old is modelled by starting the visited
  set at everything reachable from old.
-/

/-- Object ids (git oids); opaque content addresses modelled as naturals. -/
abbrev Oid := Nat

/-- A commit object as used by scratch.rs: a tree oid, the parent oids, and
the metadata that rewrite copies verbatim. -/
structure Commit where
  tree : Oid
  parents : List Oid
  author : String
  committer : String
  message : String
deriving DecidableEq

/-- The object store restricted to commit objects, plus a fresh-oid counter. -/
structure Repo where
  commits : List (Oid × Commit)
  next : Oid
deriving DecidableEq

/-- The oid of the empty tree (a fixed distinguished object). -/
def emptyTree : Oid := 0

/-- First binding for an oid in a commit list (repo.find_commit). -/
def lookupC : List (Oid × Commit) → Oid → Option Commit
  | [], _ => none
  | (k, c) :: es, o => if k = o then some c else lookupC es o

/-- repo.find_commit: look a commit up by oid. -/
def findCommit (r : Repo) (o : Oid) : Option Commit :=
  lookupC r.commits o

/-- First oid bound to a given commit content (content addressing). -/
def findContent : List (Oid × Commit) → Commit → Option Oid
  | [], _ => none
  | (k, c) :: es, cn => if c = cn then some k else findContent es cn

/-- repo.commit(...): content-addressed commit creation.  If an object with
this exact content exists its oid is returned and the store is unchanged;
otherwise the commit is stored under a fresh oid. -/
def writeCommit (r : Repo) (c : Commit) : Oid × Repo :=
  match findContent r.commits c with
  | some o => (o, r)
  | none => (r.next, ⟨(r.next, c) :: r.commits, r.next + 1⟩)

/-- Store well-formedness: the counter is fresh, an oid determines its
content, and a content determines its oid (no hash collisions). -/
abbrev RepoWF (r : Repo) : Prop :=
  (∀ p ∈ r.commits, p.1 < r.next) ∧
  (∀ p ∈ r.commits, ∀ q ∈ r.commits, p.1 = q.1 → p.2 = q.2) ∧
  (∀ p ∈ r.commits, ∀ q ∈ r.commits, p.2 = q.2 → p.1 = q.1)

/-- Store extension: every commit of the first store is in the second. -/
def RExt (r r2 : Repo) : Prop :=
  ∀ o c, findCommit r o = some c → findCommit r2 o = some c

/-- scratch.rs all_equal: the parent list of the base commit and the supplied
parent slice agree in length and pairwise in oid. -/
def all_equal (a b : List Oid) : Bool :=
  if a.length ≠ b.length then false
  else (b.zip a).all (fun pr => pr.1 == pr.2)

/-- scratch.rs rewrite: take everything from base except its tree; if the new
tree and the supplied parents coincide with those of base, hand back base
itself (signature preservation), otherwise write a commit that copies the
author, committer and message of base. -/
def rewrite (repo : Repo) (baseOid : Oid) (base : Commit) (parents : List Oid)
    (tree : Oid) : Oid × Repo :=
  if base.tree == tree && all_equal base.parents parents then (baseOid, repo)
  else
    writeCommit repo
      { tree := tree, parents := parents, author := base.author,
        committer := base.committer, message := base.message }

/-- Oid-to-oid projection cache (scratch.rs ViewMap). -/
abbrev ViewMap := List (Oid × Oid)

/-- HashMap::get on a view map (first binding wins, as insert conses). -/
def vmLookup : ViewMap → Oid → Option Oid
  | [], _ => none
  | (k, x) :: es, o => if k = o then some x else vmLookup es o

/-- A parent instruction of View::apply_to_commit: project the parent under
the same view, or under the view with the given index in the environment
(Transform). -/
inductive PTrans where
  | same : PTrans
  | transform : Nat → PTrans
deriving DecidableEq

/-- The View trait as used by scratch.rs.  apply_to_commit maps a commit
(with its oid) to the filtered tree oid and the parent instructions;
unapplyTree is View::unapply (commit tree, parent tree) and applyToTree is
View::apply_to_tree.  All three read only immutable content-addressed
objects, hence are pure functions of oids and commit records. -/
structure ViewF where
  applyToCommit : Oid → Commit → Oid × List (PTrans × Oid)
  unapplyTree : Oid → Oid → Oid
  applyToTree : Oid → Oid

/-- The mutable state threaded through a projection: the object store and the
forward/backward caches. -/
structure PState where
  repo : Repo
  forward : ViewMap
  backward : ViewMap
deriving DecidableEq

/-- Fuelled depth-first traversal implementing the revwalk with sorting
REVERSE | TOPOLOGICAL: for each unvisited oid the parents are emitted first,
then the oid, then the remaining work list; visited oids are skipped. -/
def revWalkGo (r : Repo) : Nat → List Oid → List Oid → List Oid × List Oid
  | 0, _, v => ([], v)
  | _ + 1, [], v => ([], v)
  | f + 1, o :: os, v =>
    if o ∈ v then revWalkGo r f os v
    else
      match findCommit r o with
      | none => revWalkGo r f os (o :: v)
      | some c =>
        let t1 := revWalkGo r f c.parents (o :: v)
        let t2 := revWalkGo r f os t1.2
        (t1.1 ++ [o] ++ t2.1, t2.2)

/-- Fuel that is always sufficient for the walk of a given store. -/
def walkFuel (r : Repo) : Nat :=
  (r.commits.length + 1) * (r.commits.length + 1)

/-- revwalk.push(o) with REVERSE | TOPOLOGICAL sorting: all commits reachable
from o, parents before children. -/
def revWalk (r : Repo) (o : Oid) : List Oid :=
  (revWalkGo r (walkFuel r) [o] []).1

/-- revwalk.push(nw) plus hide(old): the walk of nw with everything reachable
from old pre-visited. -/
def walkHide (r : Repo) (nw old : Oid) : List Oid :=
  (revWalkGo r (walkFuel r) [nw] (revWalkGo r (walkFuel r) [old] []).2).1

/-- repo.graph_descendant_of(nw, old): old is properly reachable from nw; an
errored lookup counts as false (the callers treat Err like false). -/
def descendantOf (r : Repo) (nw old : Oid) : Bool :=
  nw != old && (revWalk r nw).contains old

/-- The type of the recursive projector passed to the loop body (a call of
apply_view_cached one fuel level down). -/
abbrev Proj := ViewF → Oid → PState → Option (Option Oid × PState)

/-- The type of the fresh-cache projector for Transform parents (a call of
apply_view one fuel level down, on the view with the given index). -/
abbrev ProjFresh := Nat → Oid → Repo → Option (Option Oid × Repo)

/-- The parent resolution loop of apply_view_cached (scratch.rs 253-271):
Same parents are projected by the recursive cached call sharing the maps,
Transform parents by apply_view on the other view with fresh, discarded
maps; parents whose projection yields none are silently omitted, and each
successfully projected parent is looked up in the store (the unwrap). -/
def resolveParents (proj : Proj) (projF : ProjFresh) (v : ViewF) :
    List (PTrans × Oid) → PState → Option (List (Oid × Commit) × PState)
  | [], st => some ([], st)
  | (t, pid) :: rest, st =>
    match t with
    | PTrans.same =>
      match proj v pid st with
      | none => none
      | some (res, st1) =>
        match res with
        | none => resolveParents proj projF v rest st1
        | some p =>
          match findCommit st1.repo p with
          | none => none
          | some pc =>
            match resolveParents proj projF v rest st1 with
            | none => none
            | some (l, st2) => some ((p, pc) :: l, st2)
    | PTrans.transform k =>
      match projF k pid st.repo with
      | none => none
      | some (res, repo1) =>
        match res with
        | none => resolveParents proj projF v rest { st with repo := repo1 }
        | some p =>
          match findCommit repo1 p with
          | none => none
          | some pc =>
            match resolveParents proj projF v rest { st with repo := repo1 } with
            | none => none
            | some (l, st2) => some ((p, pc) :: l, st2)

/-- One step of the parent-filtering loop (scratch.rs 276-292): keep the
projected parent if its tree differs from the filtered tree; otherwise keep
it iff the original commit behind it (the unchecked backward_map[..] index,
panicking as none when the entry is missing) has the same tree as the commit
being projected. -/
def filterStep (repo : Repo) (bw : ViewMap) (ctree ntree : Oid)
    (p : Oid × Commit) : Option Bool :=
  if ntree ≠ p.2.tree then some true
  else
    match vmLookup bw p.1 with
    | none => none
    | some orig =>
      match findCommit repo orig with
      | none => none
      | some oc => some (decide (ctree = oc.tree))

/-- The parent-filtering loop over all transformed parents. -/
def filterParents (repo : Repo) (bw : ViewMap) (ctree ntree : Oid) :
    List (Oid × Commit) → Option (List (Oid × Commit))
  | [] => some []
  | p :: ps =>
    match filterStep repo bw ctree ntree p with
    | none => none
    | some true =>
      match filterParents repo bw ctree ntree ps with
      | none => none
      | some fs => some (p :: fs)
    | some false => filterParents repo bw ctree ntree ps

/-- The body of the walk loop of apply_view_cached (scratch.rs 239-308) for
one commit: skip commits already in forward; drop commits whose filtered
tree is empty while their own tree is not; resolve and filter the parents;
coalesce onto the first projected parent when all of them were filtered away
but at least one existed; otherwise rewrite and record forward and backward. -/
def processCommit (proj : Proj) (projF : ProjFresh) (v : ViewF) (o : Oid)
    (st : PState) : Option PState :=
  match findCommit st.repo o with
  | none => none
  | some c =>
    match vmLookup st.forward o with
    | some _ => some st
    | none =>
      if (v.applyToCommit o c).1 = emptyTree ∧ c.tree ≠ emptyTree then some st
      else
        match resolveParents proj projF v (v.applyToCommit o c).2 st with
        | none => none
        | some (tps, st1) =>
          match filterParents st1.repo st1.backward c.tree
              (v.applyToCommit o c).1 tps with
          | none => none
          | some fps =>
            match fps, tps with
            | [], t0 :: _ =>
              some { st1 with forward := (o, t0.1) :: st1.forward }
            | _, _ =>
              some { repo :=
                       (rewrite st1.repo o c (fps.map Prod.fst)
                         (v.applyToCommit o c).1).2,
                     forward :=
                       (o, (rewrite st1.repo o c (fps.map Prod.fst)
                         (v.applyToCommit o c).1).1) :: st1.forward,
                     backward :=
                       ((rewrite st1.repo o c (fps.map Prod.fst)
                         (v.applyToCommit o c).1).1, o) :: st1.backward }

/-- Fold the loop body over the walk list. -/
def foldWalk (proj : Proj) (projF : ProjFresh) (v : ViewF) :
    List Oid → PState → Option PState
  | [], st => some st
  | o :: os, st =>
    match processCommit proj projF v o st with
    | none => none
    | some st1 => foldWalk proj projF v os st1

/-- scratch.rs apply_view_cached: fast path on the forward cache, then walk
all ancestors of the requested revision in reverse-topological order running
the loop body, and finally answer from the forward cache.  The fuel bounds
the depth of nested projections (recursive parent projections and the fresh
apply_view calls for Transform parents); none covers both a Rust panic and
fuel exhaustion. -/
def applyViewCached (env : Nat → ViewF) : Nat → ViewF → Oid → PState →
    Option (Option Oid × PState)
  | 0, _, _, _ => none
  | fuel + 1, v, newrev, st =>
    match vmLookup st.forward newrev with
    | some id => some (some id, st)
    | none =>
      match findCommit st.repo newrev with
      | none => none
      | some _ =>
        match foldWalk
            (fun w oo ss => applyViewCached env fuel w oo ss)
            (fun k oo rr =>
              match applyViewCached env fuel (env k) oo
                  { repo := rr, forward := [], backward := [] } with
              | none => none
              | some pr => some (pr.1, pr.2.repo))
            v (revWalk st.repo newrev) st with
        | none => none
        | some st1 => some (vmLookup st1.forward newrev, st1)

/-- scratch.rs apply_view: project with fresh caches, discarding the maps. -/
def applyView (env : Nat → ViewF) (fuel : Nat) (v : ViewF) (rev : Oid)
    (repo : Repo) : Option (Option Oid × Repo) :=
  match applyViewCached env fuel v rev
      { repo := repo, forward := [], backward := [] } with
  | none => none
  | some pr => some (pr.1, pr.2.repo)

/-- The result type of unapply_view. -/
inductive UnapplyView where
  | noChanges : UnapplyView
  | done : Oid → UnapplyView
  | rejectNoFF : UnapplyView
  | rejectMerge : UnapplyView
deriving DecidableEq

/-- The walk loop of unapply_view (scratch.rs 105-136): reject the first
walked commit with more than one parent; otherwise repopulate its tree
against the current original tree via View::unapply, rewrite it onto the
current original commit, and continue with the rewritten commit.  The store
is returned alongside because rewrite writes into it. -/
def unapplyLoop (v : ViewF) : List Oid → Oid → Repo →
    Option (UnapplyView × Repo)
  | [], current, repo => some (UnapplyView.done current, repo)
  | m :: ms, current, repo =>
    match findCommit repo m with
    | none => none
    | some mc =>
      if 1 < mc.parents.length then some (UnapplyView.rejectMerge, repo)
      else
        match findCommit repo current with
        | none => none
        | some pc =>
          unapplyLoop v ms
            (rewrite repo m mc [current] (v.unapplyTree mc.tree pc.tree)).1
            (rewrite repo m mc [current] (v.unapplyTree mc.tree pc.tree)).2

/-- scratch.rs unapply_view: NoChanges when old = new; RejectNoFF when the
backward map has no entry for old or new is not a descendant of old; else
run the walk loop over the range old (exclusive) to new. -/
def unapply_view (repo : Repo) (bm : ViewMap) (v : ViewF) (old nw : Oid) :
    Option (UnapplyView × Repo) :=
  if old = nw then some (UnapplyView.noChanges, repo)
  else
    match vmLookup bm old with
    | none => some (UnapplyView.rejectNoFF, repo)
    | some current =>
      if descendantOf repo nw old then
        unapplyLoop v (walkHide repo nw old) current repo
      else some (UnapplyView.rejectNoFF, repo)

/-- Modelled from the spec: the implementation of the View trait (the tree
transformer of spec section 4.3) is not part of the sources under src/.  Per
the spec, repopulated_tree (View::unapply) produces a full tree whose
filtered view equals the overlay tree: applying the filter to
unapply(tree, parent_tree) yields tree again. -/
def ViewRoundTrip (v : ViewF) : Prop :=
  ∀ t pt, v.applyToTree (v.unapplyTree t pt) = t

/-- The keep condition of parent filtering, stated declaratively. -/
def KeepSpec (repo : Repo) (bw : ViewMap) (ctree ntree : Oid)
    (p : Oid × Commit) : Prop :=
  p.2.tree ≠ ntree ∨
    ∃ orig oc, vmLookup bw p.1 = some orig ∧
      findCommit repo orig = some oc ∧ oc.tree = ctree

/-- The invariant tracked to prove the empty-drop law: the store is
well-formed, the dropped commit keeps its record, and the forward cache has
no entry for it. -/
def CInv (c0 : Oid) (cc0 : Commit) (st : PState) : Prop :=
  RepoWF st.repo ∧ findCommit st.repo c0 = some cc0 ∧
    vmLookup st.forward c0 = none

/-- Bounded all on an optional value. -/
def optAll {α : Type} (f : α → Bool) : Option α → Bool
  | none => true
  | some a => f a

/-- A recursive projector that only grows well-formed stores. -/
def ProjMono (proj : Proj) : Prop :=
  ∀ w oo stA res stB, proj w oo stA = some (res, stB) →
    RepoWF stA.repo → RepoWF stB.repo ∧ RExt stA.repo stB.repo

/-- A fresh-cache projector that only grows well-formed stores. -/
def ProjFreshMono (projF : ProjFresh) : Prop :=
  ∀ k oo rA res rB, projF k oo rA = some (res, rB) →
    RepoWF rA → RepoWF rB ∧ RExt rA rB

/-- A recursive projector that preserves the empty-drop invariant for the
commit c0 under the main view. -/
def ProjCInv (c0 : Oid) (cc0 : Commit) (v : ViewF) (proj : Proj) : Prop :=
  ∀ oo stA res stB, proj v oo stA = some (res, stB) →
    CInv c0 cc0 stA → CInv c0 cc0 stB

/-- The external JSON and hashing collaborators of the marker writer
(serde_json parse + to_string fused into canon, and git2 hash_object
rendered in hex as hashStr); both are outside the projection core. -/
structure MarkerOps where
  canon : String → Option String
  hashStr : String → String

/-- String concatenation written through the character lists (the model of
String.append, spelled out so that concrete runs reduce). -/
def strCat (a b : String) : String :=
  String.mk (a.data ++ b.data)

/-- join with a separator (Vec::join / String.intercalate). -/
def joinWith (sep : String) : List String → String
  | [] => String.mk []
  | [x] => x
  | x :: y :: rest => strCat x (strCat sep (joinWith sep (y :: rest)))

/-- graphql.rs format_marker: canonicalise the datum and prefix it with the
blob content-hash of the canonical serialisation. -/
def format_marker (ops : MarkerOps) (input : String) : Option String :=
  match ops.canon input with
  | none => none
  | some line => some (strCat (ops.hashStr line) (strCat (":") line))

/-- The collect over format_marker in RepositoryMut.meta (fails fast). -/
def mapFormat (ops : MarkerOps) : List String → Option (List String)
  | [] => some []
  | d :: ds =>
    match format_marker ops d with
    | none => none
    | some l =>
      match mapFormat ops ds with
      | none => none
      | some ls => some (l :: ls)

/-- str::split over a single separator character (pieces between separator
occurrences, empty pieces included), written structurally over the character
list of the string. -/
def splitCharAux (c : Char) : List Char → List Char → List String
  | [], acc => [String.mk acc.reverse]
  | x :: xs, acc =>
    if x = c then String.mk acc.reverse :: splitCharAux c xs []
    else splitCharAux c xs (x :: acc)

/-- str::split over a single separator character. -/
def splitChar (c : Char) (s : String) : List String :=
  splitCharAux c s.data []

/-- prev.split('\n') followed by dropping empty lines, as done by both the
marker writer and the marker reader. -/
def splitLines (s : String) : List String :=
  (splitChar ('\x0A') s).filter (fun x => x ≠ (""))

/-- Lexicographic order on character lists (by code point; this agrees with
the byte-wise order Rust uses on str, since UTF-8 byte order and code-point
order coincide). -/
def charListLe : List Char → List Char → Bool
  | [], _ => true
  | _ :: _, [] => false
  | a :: as, b :: bs =>
    if a.toNat < b.toNat then true
    else if b.toNat < a.toNat then false
    else charListLe as bs

/-- Lexicographic order on strings. -/
def strLe (a b : String) : Bool :=
  charListLe a.data b.data

/-- Insert into a sorted list (helper of the sort). -/
def insertLine (x : String) : List String → List String
  | [] => [x]
  | y :: ys => if strLe x y then x :: y :: ys else y :: insertLine x ys

/-- Vec::sort on strings (lexicographic insertion sort). -/
def sortLines : List String → List String
  | [] => []
  | x :: xs => insertLine x (sortLines xs)

/-- Sortedness with respect to the lexicographic string order. -/
def SortedLe (l : List String) : Prop :=
  List.Pairwise (fun a b => strLe a b = true) l

/-- Vec::dedup: remove consecutive duplicates. -/
def dedupAdj : List String → List String
  | [] => []
  | a :: rest =>
    match rest with
    | [] => [a]
    | b :: _ => if a = b then dedupAdj rest else a :: dedupAdj rest

/-- The per-path update of RepositoryMut.meta (graphql.rs 666-689): previous
non-empty lines, plus the formatted markers, sorted and deduplicated. -/
def metaEntryLines (ops : MarkerOps) (prev : String) (data : List String) :
    Option (List String) :=
  match mapFormat ops data with
  | none => none
  | some news => some (dedupAdj (sortLines (splitLines prev ++ news)))

/-- The blob content written for the path: the lines joined with newlines. -/
def metaEntryContent (ops : MarkerOps) (prev : String) (data : List String) :
    Option String :=
  match metaEntryLines ops prev data with
  | none => none
  | some l => some (joinWith ("\x0A") l)

/-- The external parsers of the marker reader: git2 Oid::from_str and
serde_json::from_str (over an abstract value type JV; the serde default
Value::Null is modelled as none). -/
structure ReadOps (JV : Type) where
  parseOid : String → Option Oid
  parseJson : String → Option JV

/-- Helper of splitFirstColon: scan for the first colon. -/
def splitColonAux : List Char → List Char → String × Option String
  | [], acc => (String.mk acc.reverse, none)
  | x :: xs, acc =>
    if x = ':' then (String.mk acc.reverse, some (String.mk xs))
    else splitColonAux xs (x :: acc)

/-- str::splitn(2, ':'): the piece before the first colon, and the rest if a
colon occurs. -/
def splitFirstColon (s : String) : String × Option String :=
  splitColonAux s.data []

/-- The record list produced by Markers.data (graphql.rs 327-344): one
document per non-empty line; the oid prefix degrades to the zero oid when
unparsable, and the JSON payload degrades to the default value (modelled as
none) when missing or unparsable. -/
def markersData {JV : Type} (ops : ReadOps JV) (prev : String) :
    List (Oid × Option JV) :=
  (splitLines prev).map (fun x =>
    ((ops.parseOid (splitFirstColon x).1).getD 0,
     (splitFirstColon x).2.bind ops.parseJson))

/-- A view that maps every commit to itself (identity filter). -/
def idView : ViewF :=
  { applyToCommit := fun _ c =>
      (c.tree, c.parents.map (fun p => (PTrans.same, p))),
    unapplyTree := fun t _ => t,
    applyToTree := fun t => t }

/-- A trivial view environment. -/
def env0 : Nat → ViewF := fun _ => idView

/-- A one-commit store used by concrete runs. -/
def oneRepo : Repo :=
  ⟨[(5, ⟨7, [], "a", "a", "m"⟩)], 6⟩

/-- A view whose filtered tree is always empty (drops every commit with a
non-empty tree). -/
def dropView : ViewF :=
  { applyToCommit := fun _ _ => (emptyTree, []),
    unapplyTree := fun t _ => t,
    applyToTree := fun t => t }

/-- A store with a root commit and a child, used by the Transform run. -/
def chainRepo : Repo :=
  ⟨[(1, ⟨10, [], "a", "a", "m"⟩), (2, ⟨11, [1], "a", "a", "m"⟩)], 4⟩

/-- The other view of the Transform run: it sends every tree to 30. -/
def wView : ViewF :=
  { applyToCommit := fun _ _ => (30, []),
    unapplyTree := fun t _ => t,
    applyToTree := fun _ => 30 }

/-- The main view of the Transform run: the child commit gets filtered tree
30 and a Transform parent instruction, everything else is kept as is. -/
def vView : ViewF :=
  { applyToCommit := fun o c =>
      if o = 2 then (30, [(PTrans.transform 0, 1)])
      else (c.tree, c.parents.map (fun p => (PTrans.same, p))),
    unapplyTree := fun t _ => t,
    applyToTree := fun t => t }

/-- Environment binding index 0 to the other view of the Transform run. -/
def envT : Nat → ViewF := fun _ => wView

/-- Store for the unapply runs: an original commit 1, its projection 2, and
a new projected child 3 of 2. -/
def unapRepo : Repo :=
  ⟨[(1, ⟨10, [], "o", "o", "m"⟩), (2, ⟨10, [], "p", "p", "m"⟩),
    (3, ⟨11, [2], "q", "q", "n"⟩)], 9⟩

/-- An identity-ish view used by the unapply runs; it satisfies the
round-trip law of the spec. -/
def rtView : ViewF :=
  { applyToCommit := fun _ c =>
      (c.tree, c.parents.map (fun p => (PTrans.same, p))),
    unapplyTree := fun t _ => t,
    applyToTree := fun t => t }

/-- Store for the unapply merge run: as unapRepo but the new projected
commit is a merge. -/
def mergeRepo : Repo :=
  ⟨[(1, ⟨10, [], "o", "o", "m"⟩), (2, ⟨10, [], "p", "p", "m"⟩),
    (4, ⟨12, [], "r", "r", "m"⟩), (3, ⟨11, [2, 4], "q", "q", "n"⟩)], 9⟩

/-- Concrete marker collaborators: canonicalisation is the identity and the
hash is a constant. -/
def mOps : MarkerOps :=
  { canon := fun s => some s, hashStr := fun _ => "h" }

/-- A structural decimal parser used as a stand-in JSON parser by concrete
runs: it succeeds exactly on non-empty all-digit strings. -/
def digitsAux : List Char → Nat → Option Nat
  | [], acc => some acc
  | c :: cs, acc =>
    if c.isDigit then digitsAux cs (acc * 10 + (c.toNat - 48)) else none

/-- Parse a non-empty all-digit string. -/
def parseNat (s : String) : Option Nat :=
  match s.data with
  | [] => none
  | _ => digitsAux s.data 0

/-- Concrete reader collaborators: oids never parse, the payload parses as a
natural number when it is all digits. -/
def rOps : ReadOps Nat :=
  { parseOid := fun _ => none, parseJson := parseNat }

/-! ## Basic lemmas about the object store -/

theorem rext_refl (r : Repo) : RExt r r := fun _ _ h => h

theorem rext_trans {a b c : Repo} (h1 : RExt a b) (h2 : RExt b c) :
    RExt a c := fun o cm h => h2 o cm (h1 o cm h)

theorem lookupC_mem : ∀ (es : List (Oid × Commit)) (o : Oid) (c : Commit),
    lookupC es o = some c → (o, c) ∈ es := by
  intro es
  induction es with
  | nil => intro o c h; cases h
  | cons p ps ih =>
    intro o c h
    obtain ⟨k, cc⟩ := p
    unfold lookupC at h
    by_cases hk : k = o
    · rw [if_pos hk] at h
      injection h with h
      subst hk; subst h
      exact List.mem_cons_self _ _
    · rw [if_neg hk] at h
      exact List.mem_cons_of_mem _ (ih o c h)

theorem mem_lookupC : ∀ (es : List (Oid × Commit)) (o : Oid) (c : Commit),
    (o, c) ∈ es → ∃ c2, lookupC es o = some c2 := by
  intro es
  induction es with
  | nil => intro o c h; cases h
  | cons p ps ih =>
    intro o c h
    obtain ⟨k, cc⟩ := p
    by_cases hk : k = o
    · exact ⟨cc, by unfold lookupC; rw [if_pos hk]⟩
    · rcases List.mem_cons.mp h with h | h
      · cases h; exact absurd rfl hk
      · obtain ⟨c2, hc2⟩ := ih o c h
        exact ⟨c2, by unfold lookupC; rw [if_neg hk]; exact hc2⟩

theorem lookupC_cons_ne {k o : Oid} (c : Commit) (es : List (Oid × Commit))
    (h : k ≠ o) : lookupC ((k, c) :: es) o = lookupC es o := by
  simp only [lookupC]
  rw [if_neg h]

theorem findContent_mem : ∀ (es : List (Oid × Commit)) (cn : Commit) (o : Oid),
    findContent es cn = some o → (o, cn) ∈ es := by
  intro es
  induction es with
  | nil => intro cn o h; cases h
  | cons p ps ih =>
    intro cn o h
    obtain ⟨k, cc⟩ := p
    unfold findContent at h
    by_cases hc : cc = cn
    · rw [if_pos hc] at h
      injection h with h
      subst hc; subst h
      exact List.mem_cons_self _ _
    · rw [if_neg hc] at h
      exact List.mem_cons_of_mem _ (ih cn o h)

theorem findContent_none : ∀ (es : List (Oid × Commit)) (cn : Commit),
    findContent es cn = none → ∀ p ∈ es, p.2 ≠ cn := by
  intro es
  induction es with
  | nil => intro cn _ p hp; cases hp
  | cons q ps ih =>
    intro cn h p hp
    obtain ⟨k, cc⟩ := q
    unfold findContent at h
    by_cases hc : cc = cn
    · rw [if_pos hc] at h; cases h
    · rw [if_neg hc] at h
      rcases List.mem_cons.mp hp with hp | hp
      · subst hp; exact hc
      · exact ih cn h p hp

theorem writeCommit_wf (r : Repo) (c : Commit) (h : RepoWF r) :
    RepoWF (writeCommit r c).2 := by
  unfold writeCommit
  obtain ⟨hfresh, hkey, hcont⟩ := h
  cases hfc : findContent r.commits c with
  | some o => exact ⟨hfresh, hkey, hcont⟩
  | none =>
    refine ⟨?_, ?_, ?_⟩
    · intro p hp
      rcases List.mem_cons.mp hp with hp | hp
      · subst hp; exact Nat.lt_succ_self _
      · exact Nat.lt_succ_of_lt (hfresh p hp)
    · intro p hp q hq hpq
      rcases List.mem_cons.mp hp with hp | hp <;>
        rcases List.mem_cons.mp hq with hq | hq
      · subst hp; subst hq; rfl
      · subst hp
        have h1 : r.next = q.1 := hpq
        have h2 : q.1 < r.next := hfresh q hq
        exact absurd h1 (Nat.ne_of_gt h2)
      · subst hq
        have h1 : p.1 = r.next := hpq
        have h2 : p.1 < r.next := hfresh p hp
        exact absurd h1 (Nat.ne_of_lt h2)
      · exact hkey p hp q hq hpq
    · intro p hp q hq hpq
      rcases List.mem_cons.mp hp with hp | hp <;>
        rcases List.mem_cons.mp hq with hq | hq
      · subst hp; subst hq; rfl
      · subst hp
        have h1 : c = q.2 := hpq
        exact absurd h1.symm (findContent_none _ _ hfc q hq)
      · subst hq
        have h1 : p.2 = c := hpq
        exact absurd h1 (findContent_none _ _ hfc p hp)
      · exact hcont p hp q hq hpq

theorem writeCommit_ext (r : Repo) (c : Commit) (h : RepoWF r) :
    RExt r (writeCommit r c).2 := by
  unfold writeCommit
  cases hfc : findContent r.commits c with
  | some o => exact rext_refl r
  | none =>
    intro o2 c2 h2
    unfold findCommit at h2 ⊢
    have hm := lookupC_mem _ _ _ h2
    have hlt := h.1 _ hm
    calc lookupC ((r.next, c) :: r.commits) o2
        = lookupC r.commits o2 := lookupC_cons_ne _ _ (Nat.ne_of_gt hlt)
      _ = some c2 := h2

theorem writeCommit_find (r : Repo) (c : Commit) (h : RepoWF r) :
    findCommit (writeCommit r c).2 (writeCommit r c).1 = some c := by
  unfold writeCommit
  cases hfc : findContent r.commits c with
  | some o =>
    have hm := findContent_mem _ _ _ hfc
    obtain ⟨c2, hc2⟩ := mem_lookupC _ _ _ hm
    have hm2 := lookupC_mem _ _ _ hc2
    have hcc : c2 = c := h.2.1 (o, c2) hm2 (o, c) hm rfl
    unfold findCommit
    rw [hc2, hcc]
  | none =>
    unfold findCommit lookupC
    rw [if_pos rfl]

theorem writeCommit_cases (r : Repo) (c : Commit) (x : Oid) (cm : Commit)
    (h2 : findCommit (writeCommit r c).2 x = some cm) :
    findCommit r x = some cm ∨ (x = (writeCommit r c).1 ∧ cm = c) := by
  unfold writeCommit at h2 ⊢
  cases hfc : findContent r.commits c with
  | some o => rw [hfc] at h2; exact Or.inl h2
  | none =>
    rw [hfc] at h2
    unfold findCommit at h2 ⊢
    by_cases hx : r.next = x
    · right
      unfold lookupC at h2
      rw [if_pos hx] at h2
      injection h2 with h2
      exact ⟨hx.symm, h2.symm⟩
    · left
      rwa [lookupC_cons_ne _ _ hx] at h2

theorem writeCommit_ne (r : Repo) (c : Commit) (bo : Oid) (b : Commit)
    (h : RepoWF r) (hb : findCommit r bo = some b) (hne : c ≠ b) :
    (writeCommit r c).1 ≠ bo := by
  have hbm := lookupC_mem r.commits bo b hb
  unfold writeCommit
  cases hfc : findContent r.commits c with
  | some o =>
    intro hEq
    have hEq2 : o = bo := hEq
    have hcm := findContent_mem _ _ _ hfc
    have : c = b :=
      h.2.1 (o, c) hcm (bo, b) hbm (show (o, c).1 = (bo, b).1 from hEq2)
    exact hne this
  | none =>
    intro hEq
    have hEq2 : r.next = bo := hEq
    have hlt2 : bo < r.next := h.1 _ hbm
    exact absurd hEq2 (Nat.ne_of_gt hlt2)

theorem zip_all_eq : ∀ (a b : List Oid), a.length = b.length →
    (((b.zip a).all fun pr => pr.1 == pr.2) = true ↔ a = b) := by
  intro a
  induction a with
  | nil =>
    intro b h
    cases b with
    | nil => simp
    | cons y ys => simp at h
  | cons x xs ih =>
    intro b h
    cases b with
    | nil => simp at h
    | cons y ys =>
      have hlen : xs.length = ys.length := by
        simpa using h
      simp only [List.zip_cons_cons, List.all_cons, Bool.and_eq_true, beq_iff_eq]
      rw [ih ys hlen]
      constructor
      · rintro ⟨h1, h2⟩
        rw [h1, h2]
      · intro h2
        injection h2 with h2a h2b
        exact ⟨h2a.symm, h2b⟩

theorem all_equal_eq (a b : List Oid) : all_equal a b = true ↔ a = b := by
  unfold all_equal
  by_cases h : a.length = b.length
  · rw [if_neg (by simpa using h)]
    exact zip_all_eq a b h
  · rw [if_pos (by simpa using h)]
    constructor
    · intro hh; cases hh
    · intro hh; subst hh; exact absurd rfl h

theorem rewrite_cond (base : Commit) (parents : List Oid) (tree : Oid) :
    (base.tree == tree && all_equal base.parents parents) = true ↔
      (base.tree = tree ∧ base.parents = parents) := by
  rw [Bool.and_eq_true, beq_iff_eq, all_equal_eq]

theorem rewrite_wf_ext (repo : Repo) (bo : Oid) (b : Commit)
    (ps : List Oid) (t : Oid) (h : RepoWF repo) :
    RepoWF (rewrite repo bo b ps t).2 ∧ RExt repo (rewrite repo bo b ps t).2 := by
  unfold rewrite
  split
  · exact ⟨h, rext_refl repo⟩
  · exact ⟨writeCommit_wf _ _ h, writeCommit_ext _ _ h⟩

theorem rewrite_new (repo : Repo) (bo : Oid) (b : Commit) (ps : List Oid)
    (t : Oid) (x : Oid) (cm : Commit)
    (h2 : findCommit (rewrite repo bo b ps t).2 x = some cm)
    (h3 : findCommit repo x = none) :
    cm = ⟨t, ps, b.author, b.committer, b.message⟩ := by
  unfold rewrite at h2
  split at h2
  · rw [h2] at h3; cases h3
  · rcases writeCommit_cases _ _ _ _ h2 with h4 | h4
    · rw [h4] at h3; cases h3
    · exact h4.2

theorem rewrite_found (repo : Repo) (bo : Oid) (b : Commit) (ps : List Oid)
    (t : Oid) (h : RepoWF repo) (hb : findCommit repo bo = some b) :
    (findCommit (rewrite repo bo b ps t).2 (rewrite repo bo b ps t).1).isSome
      = true := by
  unfold rewrite
  split
  · rw [hb]; rfl
  · rw [writeCommit_find _ _ h]; rfl

/-! ## C1: signature preservation of rewrite -/

/-- Claim C1: for every commit, whenever the new tree oid equals the base
commit's own tree oid and the supplied parent list equals its parent list
exactly, rewrite returns the base oid and writes no new commit; otherwise it
writes a commit carrying the base commit's author, committer and message and
returns that commit's oid, which differs from the base oid. -/
theorem rewrite_signature_preservation (repo : Repo) (baseOid : Oid)
    (base : Commit) (parents : List Oid) (tree : Oid)
    (hwf : RepoWF repo) (hb : findCommit repo baseOid = some base) :
    (tree = base.tree ∧ parents = base.parents →
        rewrite repo baseOid base parents tree = (baseOid, repo)) ∧
    (¬(tree = base.tree ∧ parents = base.parents) →
        (rewrite repo baseOid base parents tree).1 ≠ baseOid ∧
        findCommit (rewrite repo baseOid base parents tree).2
            (rewrite repo baseOid base parents tree).1 =
          some { tree := tree, parents := parents, author := base.author,
                 committer := base.committer, message := base.message } ∧
        RExt repo (rewrite repo baseOid base parents tree).2) := by
  constructor
  · rintro ⟨h1, h2⟩
    unfold rewrite
    rw [if_pos ((rewrite_cond base parents tree).mpr ⟨h1.symm, h2.symm⟩)]
  · intro hcond
    have hcond2 :
        ¬(base.tree == tree && all_equal base.parents parents) = true := by
      rw [rewrite_cond]
      rintro ⟨h1, h2⟩
      exact hcond ⟨h1.symm, h2.symm⟩
    have hne : Commit.mk tree parents base.author base.committer
        base.message ≠ base := by
      intro hh
      cases base with
      | mk bt bp ba bc bm =>
        simp only [Commit.mk.injEq] at hh
        exact hcond ⟨hh.1, hh.2.1⟩
    unfold rewrite
    rw [if_neg hcond2]
    exact ⟨writeCommit_ne repo _ baseOid base hwf hb hne,
      writeCommit_find repo _ hwf, writeCommit_ext repo _ hwf⟩

theorem rewrite_signature_preservation_witness :
    rewrite oneRepo 5 ⟨7, [], "a", "a", "m"⟩ [] 7 = (5, oneRepo) ∧
    (rewrite oneRepo 5 ⟨7, [], "a", "a", "m"⟩ [] 8).1 ≠ 5 :=
  ⟨(rewrite_signature_preservation oneRepo 5 ⟨7, [], "a", "a", "m"⟩ [] 7
      (by decide) (by rfl)).1 ⟨rfl, rfl⟩,
   ((rewrite_signature_preservation oneRepo 5 ⟨7, [], "a", "a", "m"⟩ [] 8
      (by decide) (by rfl)).2 (by decide)).1⟩

/-! ## C3: parent filtering -/

theorem filterStep_true (repo : Repo) (bw : ViewMap) (ctree ntree : Oid)
    (q : Oid × Commit) (h : filterStep repo bw ctree ntree q = some true) :
    KeepSpec repo bw ctree ntree q := by
  unfold filterStep at h
  by_cases h1 : ntree ≠ q.2.tree
  · exact Or.inl (Ne.symm h1)
  · rw [if_neg h1] at h
    cases hlo : vmLookup bw q.1 with
    | none => rw [hlo] at h; cases h
    | some orig =>
      simp only [hlo] at h
      cases hfo : findCommit repo orig with
      | none => simp only [hfo] at h; cases h
      | some oc =>
        simp only [hfo, Option.some.injEq] at h
        exact Or.inr ⟨orig, oc, hlo, hfo, (of_decide_eq_true h).symm⟩

theorem filterStep_false (repo : Repo) (bw : ViewMap) (ctree ntree : Oid)
    (q : Oid × Commit) (h : filterStep repo bw ctree ntree q = some false) :
    ¬KeepSpec repo bw ctree ntree q := by
  unfold filterStep at h
  by_cases h1 : ntree ≠ q.2.tree
  · rw [if_pos h1] at h; cases h
  · rw [if_neg h1] at h
    cases hlo : vmLookup bw q.1 with
    | none => rw [hlo] at h; cases h
    | some orig =>
      simp only [hlo] at h
      cases hfo : findCommit repo orig with
      | none => simp only [hfo] at h; cases h
      | some oc =>
        simp only [hfo, Option.some.injEq] at h
        have hnq : ctree ≠ oc.tree := of_decide_eq_false h
        rintro (hl | ⟨o2, oc2, hlo2, hfo2, hte⟩)
        · exact h1 (Ne.symm hl)
        · rw [hlo] at hlo2
          injection hlo2 with hlo2
          subst hlo2
          rw [hfo] at hfo2
          injection hfo2 with hfo2
          subst hfo2
          exact hnq hte.symm

/-- Claim C3: a successfully projected parent is kept by parent filtering
iff its tree differs from the filtered tree, or the original commit the
backward map associates with it has the same tree as the commit being
projected. -/
theorem projection_parent_filtering (repo : Repo) (bw : ViewMap)
    (ctree ntree : Oid) (ps : List (Oid × Commit)) :
    ∀ fs, filterParents repo bw ctree ntree ps = some fs →
      ∀ p, (p ∈ fs ↔ p ∈ ps ∧ KeepSpec repo bw ctree ntree p) := by
  induction ps with
  | nil =>
    intro fs h p
    cases h
    simp
  | cons q ps ih =>
    intro fs h p
    simp only [filterParents] at h
    cases hstep : filterStep repo bw ctree ntree q with
    | none => rw [hstep] at h; cases h
    | some b =>
      rw [hstep] at h
      cases b with
      | true =>
        cases hrec : filterParents repo bw ctree ntree ps with
        | none => rw [hrec] at h; cases h
        | some fs2 =>
          rw [hrec] at h
          injection h with h
          subst h
          simp only [List.mem_cons]
          constructor
          · rintro (rfl | hp)
            · exact ⟨Or.inl rfl, filterStep_true repo bw ctree ntree p hstep⟩
            · have h2 := (ih fs2 hrec p).mp hp
              exact ⟨Or.inr h2.1, h2.2⟩
          · rintro ⟨rfl | hp, hk⟩
            · exact Or.inl rfl
            · exact Or.inr ((ih fs2 hrec p).mpr ⟨hp, hk⟩)
      | false =>
        simp only [List.mem_cons]
        constructor
        · intro hp
          have h2 := (ih fs h p).mp hp
          exact ⟨Or.inr h2.1, h2.2⟩
        · rintro ⟨rfl | hp, hk⟩
          · exact absurd hk (filterStep_false repo bw ctree ntree p hstep)
          · exact (ih fs h p).mpr ⟨hp, hk⟩

theorem projection_parent_filtering_witness :
    ((7, (⟨20, [], "x", "x", "x"⟩ : Commit)) ∈
        [(7, (⟨20, [], "x", "x", "x"⟩ : Commit))] ↔
      (7, (⟨20, [], "x", "x", "x"⟩ : Commit)) ∈
          [(7, (⟨20, [], "x", "x", "x"⟩ : Commit))] ∧
        KeepSpec ⟨[(9, ⟨10, [], "y", "y", "y"⟩)], 11⟩ [(7, 9)] 10 20
          (7, ⟨20, [], "x", "x", "x"⟩)) :=
  projection_parent_filtering ⟨[(9, ⟨10, [], "y", "y", "y"⟩)], 11⟩ [(7, 9)]
    10 20 [(7, ⟨20, [], "x", "x", "x"⟩)]
    [(7, ⟨20, [], "x", "x", "x"⟩)] (by rfl) (7, ⟨20, [], "x", "x", "x"⟩)

/-! ## C4: coalescing -/

/-- Claim C4: when every projected parent was removed by filtering but at
least one projection succeeded, the loop body records the first projected
parent's oid as the forward image of the commit, materialises no commit, and
records nothing in the backward map. -/
theorem projection_coalescing (proj : Proj) (projF : ProjFresh) (v : ViewF)
    (o : Oid) (c : Commit) (st st1 : PState) (t0 : Oid × Commit)
    (ts : List (Oid × Commit))
    (hfind : findCommit st.repo o = some c)
    (hfwd : vmLookup st.forward o = none)
    (hdrop : ¬((v.applyToCommit o c).1 = emptyTree ∧ c.tree ≠ emptyTree))
    (hres : resolveParents proj projF v (v.applyToCommit o c).2 st =
      some (t0 :: ts, st1))
    (hfil : filterParents st1.repo st1.backward c.tree
      (v.applyToCommit o c).1 (t0 :: ts) = some []) :
    processCommit proj projF v o st =
      some { repo := st1.repo, forward := (o, t0.1) :: st1.forward,
             backward := st1.backward } := by
  unfold processCommit
  rw [hfind]
  simp only []
  rw [hfwd]
  simp only []
  rw [if_neg hdrop, hres]
  simp only []
  rw [hfil]

theorem projection_coalescing_witness :
    processCommit (fun _ _ st => some (some 7, st)) (fun _ _ _ => none)
        ⟨fun _ _ => (20, [(PTrans.same, 9)]), fun t _ => t, fun t => t⟩ 2
        { repo := ⟨[(2, ⟨11, [9], "z", "z", "z"⟩), (7, ⟨20, [], "x", "x", "x"⟩),
                    (9, ⟨10, [], "y", "y", "y"⟩)], 30⟩,
          forward := [], backward := [(7, 9)] } =
      some { repo := ⟨[(2, ⟨11, [9], "z", "z", "z"⟩), (7, ⟨20, [], "x", "x", "x"⟩),
                       (9, ⟨10, [], "y", "y", "y"⟩)], 30⟩,
             forward := [(2, 7)], backward := [(7, 9)] } :=
  projection_coalescing (fun _ _ st => some (some 7, st)) (fun _ _ _ => none)
    ⟨fun _ _ => (20, [(PTrans.same, 9)]), fun t _ => t, fun t => t⟩ 2
    ⟨11, [9], "z", "z", "z"⟩
    { repo := ⟨[(2, ⟨11, [9], "z", "z", "z"⟩), (7, ⟨20, [], "x", "x", "x"⟩),
                (9, ⟨10, [], "y", "y", "y"⟩)], 30⟩,
      forward := [], backward := [(7, 9)] }
    { repo := ⟨[(2, ⟨11, [9], "z", "z", "z"⟩), (7, ⟨20, [], "x", "x", "x"⟩),
                (9, ⟨10, [], "y", "y", "y"⟩)], 30⟩,
      forward := [], backward := [(7, 9)] }
    (7, ⟨20, [], "x", "x", "x"⟩) [] (by rfl) (by rfl) (by decide) (by rfl)
    (by rfl)

/-! ## C5: backward recording on the rewrite path -/

/-- Counterexample to claim C5: projecting a single-commit history under the
identity view returns the commit's own oid (new_oid = c.oid, no new commit
is written: the store is unchanged), and yet backward[new_oid] = c is
recorded, contradicting that backward is recorded only when new_oid differs
from c's own oid. -/
theorem backward_recording_counterexample :
    applyViewCached env0 3 idView 5
        { repo := oneRepo, forward := [], backward := [] } =
      some (some 5, { repo := oneRepo, forward := [(5, 5)],
                      backward := [(5, 5)] }) ∧
    vmLookup [(5, 5)] 5 = some 5 :=
  ⟨rfl, rfl⟩

/-- Claim C5 as amended: on the rewrite path the loop body always records
forward[c] = new_oid and also always records backward[new_oid] = c,
unconditionally - including when new_oid equals c's own oid. -/
theorem backward_recording_unconditional (proj : Proj) (projF : ProjFresh)
    (v : ViewF) (o : Oid) (c : Commit) (st st1 : PState)
    (tps fps : List (Oid × Commit))
    (hfind : findCommit st.repo o = some c)
    (hfwd : vmLookup st.forward o = none)
    (hdrop : ¬((v.applyToCommit o c).1 = emptyTree ∧ c.tree ≠ emptyTree))
    (hres : resolveParents proj projF v (v.applyToCommit o c).2 st =
      some (tps, st1))
    (hfil : filterParents st1.repo st1.backward c.tree
      (v.applyToCommit o c).1 tps = some fps)
    (hnc : ¬(fps = [] ∧ tps ≠ [])) :
    processCommit proj projF v o st =
      some { repo := (rewrite st1.repo o c (fps.map Prod.fst)
                       (v.applyToCommit o c).1).2,
             forward := (o, (rewrite st1.repo o c (fps.map Prod.fst)
                       (v.applyToCommit o c).1).1) :: st1.forward,
             backward := ((rewrite st1.repo o c (fps.map Prod.fst)
                       (v.applyToCommit o c).1).1, o) :: st1.backward } ∧
    vmLookup ((o, (rewrite st1.repo o c (fps.map Prod.fst)
        (v.applyToCommit o c).1).1) :: st1.forward) o =
      some (rewrite st1.repo o c (fps.map Prod.fst)
        (v.applyToCommit o c).1).1 ∧
    vmLookup (((rewrite st1.repo o c (fps.map Prod.fst)
        (v.applyToCommit o c).1).1, o) :: st1.backward)
        (rewrite st1.repo o c (fps.map Prod.fst)
          (v.applyToCommit o c).1).1 = some o := by
  refine ⟨?_, by simp [vmLookup], by simp [vmLookup]⟩
  unfold processCommit
  rw [hfind]
  simp only []
  rw [hfwd]
  simp only []
  rw [if_neg hdrop, hres]
  simp only []
  rw [hfil]
  cases fps with
  | nil =>
    cases tps with
    | nil => rfl
    | cons t0 ts => exact absurd ⟨rfl, by simp⟩ hnc
  | cons f0 fs => rfl

theorem backward_recording_unconditional_witness :
    processCommit (fun _ _ _ => none) (fun _ _ _ => none) idView 5
        { repo := oneRepo, forward := [], backward := [] } =
      some { repo := oneRepo, forward := [(5, 5)], backward := [(5, 5)] } ∧
    vmLookup [(5, 5)] 5 = some 5 ∧ vmLookup [(5, 5)] 5 = some 5 :=
  backward_recording_unconditional (fun _ _ _ => none) (fun _ _ _ => none)
    idView 5 ⟨7, [], "a", "a", "m"⟩
    { repo := oneRepo, forward := [], backward := [] }
    { repo := oneRepo, forward := [], backward := [] } [] []
    (by rfl) (by rfl) (by decide) (by rfl) (by rfl) (by decide)

/-! ## Store monotonicity of the projector -/

theorem vmLookup_cons_ne {k o : Oid} (x : Oid) (es : ViewMap) (h : k ≠ o) :
    vmLookup ((k, x) :: es) o = vmLookup es o := by
  simp only [vmLookup]
  rw [if_neg h]

theorem resolveParents_mono (proj : Proj) (projF : ProjFresh) (v : ViewF)
    (hp : ProjMono proj) (hpf : ProjFreshMono projF) :
    ∀ pts st l st2, resolveParents proj projF v pts st = some (l, st2) →
      RepoWF st.repo → RepoWF st2.repo ∧ RExt st.repo st2.repo := by
  intro pts
  induction pts with
  | nil =>
    intro st l st2 h hwf
    cases h
    exact ⟨hwf, rext_refl _⟩
  | cons tp rest ih =>
    intro st l st2 h hwf
    obtain ⟨t, pid⟩ := tp
    cases t with
    | same =>
      simp only [resolveParents] at h
      split at h
      · exact Option.noConfusion h
      · next res st1 hc =>
        obtain ⟨hwf1, hext1⟩ := hp v pid st res st1 hc hwf
        split at h
        · obtain ⟨hwf2, hext2⟩ := ih st1 l st2 h hwf1
          exact ⟨hwf2, rext_trans hext1 hext2⟩
        · next p =>
          split at h
          · exact Option.noConfusion h
          · next pc hfc =>
            split at h
            · exact Option.noConfusion h
            · next l2 st3 hrec =>
              cases h
              obtain ⟨hwf2, hext2⟩ := ih st1 l2 st2 hrec hwf1
              exact ⟨hwf2, rext_trans hext1 hext2⟩
    | transform k =>
      simp only [resolveParents] at h
      split at h
      · exact Option.noConfusion h
      · next res repo1 hc =>
        obtain ⟨hwf1, hext1⟩ := hpf k pid st.repo res repo1 hc hwf
        split at h
        · obtain ⟨hwf2, hext2⟩ := ih _ l st2 h hwf1
          exact ⟨hwf2, rext_trans hext1 hext2⟩
        · next p =>
          split at h
          · exact Option.noConfusion h
          · next pc hfc =>
            split at h
            · exact Option.noConfusion h
            · next l2 st3 hrec =>
              cases h
              obtain ⟨hwf2, hext2⟩ := ih _ l2 st2 hrec hwf1
              exact ⟨hwf2, rext_trans hext1 hext2⟩

theorem processCommit_mono (proj : Proj) (projF : ProjFresh) (v : ViewF)
    (hp : ProjMono proj) (hpf : ProjFreshMono projF) :
    ∀ o st st2, processCommit proj projF v o st = some st2 →
      RepoWF st.repo → RepoWF st2.repo ∧ RExt st.repo st2.repo := by
  intro o st st2 h hwf
  simp only [processCommit] at h
  split at h
  · exact Option.noConfusion h
  next c hfc =>
  split at h
  · cases h; exact ⟨hwf, rext_refl _⟩
  next hfw =>
  split at h
  · cases h; exact ⟨hwf, rext_refl _⟩
  next hdrop =>
  split at h
  · exact Option.noConfusion h
  next tps st1 hres =>
  obtain ⟨hwf1, hext1⟩ :=
    resolveParents_mono proj projF v hp hpf _ st tps st1 hres hwf
  split at h
  · exact Option.noConfusion h
  next fps hfil =>
  split at h
  · next t0 ts =>
    cases h
    exact ⟨hwf1, hext1⟩
  · cases h
    obtain ⟨hwf2, hext2⟩ :=
      rewrite_wf_ext st1.repo o c (fps.map Prod.fst)
        (v.applyToCommit o c).1 hwf1
    exact ⟨hwf2, rext_trans hext1 hext2⟩

theorem foldWalk_mono (proj : Proj) (projF : ProjFresh) (v : ViewF)
    (hp : ProjMono proj) (hpf : ProjFreshMono projF) :
    ∀ ws st st2, foldWalk proj projF v ws st = some st2 →
      RepoWF st.repo → RepoWF st2.repo ∧ RExt st.repo st2.repo := by
  intro ws
  induction ws with
  | nil =>
    intro st st2 h hwf
    cases h
    exact ⟨hwf, rext_refl _⟩
  | cons o os ih =>
    intro st st2 h hwf
    simp only [foldWalk] at h
    split at h
    · exact Option.noConfusion h
    next st1 hpc =>
    obtain ⟨hwf1, hext1⟩ := processCommit_mono proj projF v hp hpf o st st1 hpc hwf
    obtain ⟨hwf2, hext2⟩ := ih st1 st2 h hwf1
    exact ⟨hwf2, rext_trans hext1 hext2⟩

theorem applyViewCached_mono (env : Nat → ViewF) :
    ∀ fuel v rev st res st2,
      applyViewCached env fuel v rev st = some (res, st2) → RepoWF st.repo →
      RepoWF st2.repo ∧ RExt st.repo st2.repo := by
  intro fuel
  induction fuel with
  | zero =>
    intro v rev st res st2 h hwf
    exact Option.noConfusion h
  | succ f ih =>
    intro v rev st res st2 h hwf
    simp only [applyViewCached] at h
    split at h
    · cases h; exact ⟨hwf, rext_refl _⟩
    next hfw =>
    split at h
    · exact Option.noConfusion h
    next c hfc =>
    split at h
    · exact Option.noConfusion h
    next st1 hfold =>
    cases h
    refine foldWalk_mono _ _ v ?_ ?_ _ _ _ hfold hwf
    · intro w oo stA res2 stB hcall hwfA
      exact ih w oo stA res2 stB hcall hwfA
    · intro k oo rA res2 rB hcall hwfA
      simp only [] at hcall
      cases hc2 : applyViewCached env f (env k) oo
          { repo := rA, forward := [], backward := [] } with
      | none => simp only [hc2] at hcall; exact Option.noConfusion hcall
      | some pr =>
        obtain ⟨r1, s1⟩ := pr
        simp only [hc2, Option.some.injEq, Prod.mk.injEq] at hcall
        obtain ⟨h1, h2⟩ := hcall
        subst h2
        exact ih (env k) oo { repo := rA, forward := [], backward := [] }
          r1 s1 hc2 hwfA

/-! ## The empty-drop invariant -/

theorem applyView_lambda_mono (env : Nat → ViewF) (f : Nat) :
    ProjFreshMono (fun k oo rr =>
      match applyViewCached env f (env k) oo
          { repo := rr, forward := [], backward := [] } with
      | none => none
      | some pr => some (pr.1, pr.2.repo)) := by
  intro k oo rA res2 rB hcall hwfA
  simp only [] at hcall
  cases hc2 : applyViewCached env f (env k) oo
      { repo := rA, forward := [], backward := [] } with
  | none => simp only [hc2] at hcall; exact Option.noConfusion hcall
  | some pr =>
    obtain ⟨r1, s1⟩ := pr
    simp only [hc2, Option.some.injEq, Prod.mk.injEq] at hcall
    obtain ⟨h1, h2⟩ := hcall
    subst h2
    exact applyViewCached_mono env f (env k) oo
      { repo := rA, forward := [], backward := [] } r1 s1 hc2 hwfA

theorem resolveParents_cinv (proj : Proj) (projF : ProjFresh) (v : ViewF)
    (c0 : Oid) (cc0 : Commit)
    (hp : ProjCInv c0 cc0 v proj) (hpf : ProjFreshMono projF) :
    ∀ pts st l st2, resolveParents proj projF v pts st = some (l, st2) →
      CInv c0 cc0 st → CInv c0 cc0 st2 := by
  intro pts
  induction pts with
  | nil =>
    intro st l st2 h hinv
    cases h
    exact hinv
  | cons tp rest ih =>
    intro st l st2 h hinv
    obtain ⟨t, pid⟩ := tp
    cases t with
    | same =>
      simp only [resolveParents] at h
      split at h
      · exact Option.noConfusion h
      · next res st1 hc =>
        have hinv1 := hp pid st res st1 hc hinv
        split at h
        · exact ih st1 l st2 h hinv1
        · next p =>
          split at h
          · exact Option.noConfusion h
          · next pc hfc =>
            split at h
            · exact Option.noConfusion h
            · next l2 st3 hrec =>
              cases h
              exact ih st1 l2 st2 hrec hinv1
    | transform k =>
      simp only [resolveParents] at h
      split at h
      · exact Option.noConfusion h
      · next res repo1 hc =>
        obtain ⟨hwf1, hext1⟩ := hpf k pid st.repo res repo1 hc hinv.1
        have hinv1 : CInv c0 cc0 { st with repo := repo1 } :=
          ⟨hwf1, hext1 _ _ hinv.2.1, hinv.2.2⟩
        split at h
        · exact ih _ l st2 h hinv1
        · next p =>
          split at h
          · exact Option.noConfusion h
          · next pc hfc =>
            split at h
            · exact Option.noConfusion h
            · next l2 st3 hrec =>
              cases h
              exact ih _ l2 st2 hrec hinv1

theorem processCommit_cinv (proj : Proj) (projF : ProjFresh) (v : ViewF)
    (c0 : Oid) (cc0 : Commit)
    (hdrop0 : (v.applyToCommit c0 cc0).1 = emptyTree)
    (hne0 : cc0.tree ≠ emptyTree)
    (hp : ProjCInv c0 cc0 v proj) (hpf : ProjFreshMono projF) :
    ∀ o st st2, processCommit proj projF v o st = some st2 →
      CInv c0 cc0 st → CInv c0 cc0 st2 := by
  intro o st st2 h hinv
  simp only [processCommit] at h
  split at h
  · exact Option.noConfusion h
  next c hfc =>
  split at h
  · cases h; exact hinv
  next hfw =>
  split at h
  · cases h; exact hinv
  next hdrop =>
  have hoc : o ≠ c0 := by
    intro hoeq
    have h2 : findCommit st.repo o = some cc0 := by
      rw [hoeq]; exact hinv.2.1
    rw [hfc] at h2
    injection h2 with h2
    apply hdrop
    rw [hoeq, h2]
    exact ⟨hdrop0, hne0⟩
  split at h
  · exact Option.noConfusion h
  next tps st1 hres =>
  have hinv1 : CInv c0 cc0 st1 :=
    resolveParents_cinv proj projF v c0 cc0 hp hpf _ st tps st1 hres hinv
  split at h
  · exact Option.noConfusion h
  next fps hfil =>
  split at h
  · next t0 ts =>
    cases h
    refine ⟨hinv1.1, hinv1.2.1, ?_⟩
    rw [vmLookup_cons_ne _ _ hoc]
    exact hinv1.2.2
  · cases h
    obtain ⟨hwf2, hext2⟩ :=
      rewrite_wf_ext st1.repo o c (fps.map Prod.fst)
        (v.applyToCommit o c).1 hinv1.1
    refine ⟨hwf2, hext2 _ _ hinv1.2.1, ?_⟩
    rw [vmLookup_cons_ne _ _ hoc]
    exact hinv1.2.2

theorem foldWalk_cinv (proj : Proj) (projF : ProjFresh) (v : ViewF)
    (c0 : Oid) (cc0 : Commit)
    (hdrop0 : (v.applyToCommit c0 cc0).1 = emptyTree)
    (hne0 : cc0.tree ≠ emptyTree)
    (hp : ProjCInv c0 cc0 v proj) (hpf : ProjFreshMono projF) :
    ∀ ws st st2, foldWalk proj projF v ws st = some st2 →
      CInv c0 cc0 st → CInv c0 cc0 st2 := by
  intro ws
  induction ws with
  | nil =>
    intro st st2 h hinv
    cases h
    exact hinv
  | cons o os ih =>
    intro st st2 h hinv
    simp only [foldWalk] at h
    split at h
    · exact Option.noConfusion h
    next st1 hpc =>
    exact ih st1 st2 h
      (processCommit_cinv proj projF v c0 cc0 hdrop0 hne0 hp hpf o st st1
        hpc hinv)

theorem applyViewCached_cinv (env : Nat → ViewF) (v : ViewF)
    (c0 : Oid) (cc0 : Commit)
    (hdrop0 : (v.applyToCommit c0 cc0).1 = emptyTree)
    (hne0 : cc0.tree ≠ emptyTree) :
    ∀ fuel rev st res st2,
      applyViewCached env fuel v rev st = some (res, st2) →
      CInv c0 cc0 st → CInv c0 cc0 st2 := by
  intro fuel
  induction fuel with
  | zero =>
    intro rev st res st2 h hinv
    exact Option.noConfusion h
  | succ f ih =>
    intro rev st res st2 h hinv
    simp only [applyViewCached] at h
    split at h
    · cases h; exact hinv
    next hfw =>
    split at h
    · exact Option.noConfusion h
    next c hfc =>
    split at h
    · exact Option.noConfusion h
    next st1 hfold =>
    cases h
    refine foldWalk_cinv _ _ v c0 cc0 hdrop0 hne0 ?_
      (applyView_lambda_mono env f) _ _ _ hfold hinv
    intro oo stA res2 stB hcall hinvA
    exact ih oo stA res2 stB hcall hinvA

/-! ## C2: empty-drop -/

/-- Claim C2: if the filter maps the tree of a commit c0 to the empty tree
while c0's own tree is not empty, then a successful projection records no
forward entry for c0, visiting c0 in the loop body leaves the whole state
(store included: no commit is written for c0) unchanged, and when c0 is the
requested revision the projection answers none. -/
theorem projection_empty_drop (env : Nat → ViewF) (fuel : Nat) (v : ViewF)
    (c0 : Oid) (cc0 : Commit) (rev : Oid) (st : PState) (res : Option Oid)
    (st2 : PState)
    (hwf : RepoWF st.repo)
    (hfind : findCommit st.repo c0 = some cc0)
    (hdrop : (v.applyToCommit c0 cc0).1 = emptyTree)
    (hne : cc0.tree ≠ emptyTree)
    (hfwd : vmLookup st.forward c0 = none)
    (hrun : applyViewCached env fuel v rev st = some (res, st2)) :
    vmLookup st2.forward c0 = none ∧ (rev = c0 → res = none) ∧
    (∀ proj projF, processCommit proj projF v c0 st = some st) := by
  have hinv2 : CInv c0 cc0 st2 :=
    applyViewCached_cinv env v c0 cc0 hdrop hne fuel rev st res st2 hrun
      ⟨hwf, hfind, hfwd⟩
  refine ⟨hinv2.2.2, ?_, ?_⟩
  · intro hrev
    cases fuel with
    | zero => exact Option.noConfusion hrun
    | succ f =>
      simp only [applyViewCached] at hrun
      split at hrun
      · next id hfw =>
        rw [hrev] at hfw
        rw [hfwd] at hfw
        exact Option.noConfusion hfw
      next hfw =>
      split at hrun
      · exact Option.noConfusion hrun
      next c hfc =>
      split at hrun
      · exact Option.noConfusion hrun
      next st1 hfold =>
      have hinv1 : CInv c0 cc0 st1 := by
        refine foldWalk_cinv _ _ v c0 cc0 hdrop hne ?_
          (applyView_lambda_mono env f) _ _ _ hfold ⟨hwf, hfind, hfwd⟩
        intro oo stA res2 stB hcall hinvA
        exact applyViewCached_cinv env v c0 cc0 hdrop hne f oo stA res2 stB
          hcall hinvA
      cases hrun
      rw [hrev]
      exact hinv1.2.2
  · intro proj projF
    simp only [processCommit]
    rw [hfind]
    simp only []
    rw [hfwd]
    simp only []
    rw [if_pos ⟨hdrop, hne⟩]

theorem projection_empty_drop_witness :
    vmLookup ({ repo := oneRepo, forward := [], backward := [] }
        : PState).forward 5 = none ∧
    ((5 : Oid) = 5 → (none : Option Oid) = none) ∧
    (∀ proj projF, processCommit proj projF dropView 5
        { repo := oneRepo, forward := [], backward := [] } =
      some { repo := oneRepo, forward := [], backward := [] }) :=
  projection_empty_drop env0 3 dropView 5 ⟨7, [], "a", "a", "m"⟩ 5
    { repo := oneRepo, forward := [], backward := [] } none
    { repo := oneRepo, forward := [], backward := [] }
    (by decide) (by rfl) (by rfl) (by decide) (by rfl) (by rfl)

/-! ## C6 and C7: the unapply engine -/

theorem unapplyLoop_outcomes (v : ViewF) :
    ∀ ms cur repo, RepoWF repo →
      (findCommit repo cur).isSome = true →
      (∀ m ∈ ms, (findCommit repo m).isSome = true) →
      ((∃ m ∈ ms, ∃ mc, findCommit repo m = some mc ∧
            1 < mc.parents.length) →
          ∃ r2, unapplyLoop v ms cur repo =
            some (UnapplyView.rejectMerge, r2)) ∧
      ((∀ m ∈ ms, ∀ mc, findCommit repo m = some mc →
            mc.parents.length ≤ 1) →
          ∃ r r2, unapplyLoop v ms cur repo =
            some (UnapplyView.done r, r2)) := by
  intro ms
  induction ms with
  | nil =>
    intro cur repo hwf hcur hall
    constructor
    · rintro ⟨m, hm, _⟩
      exact absurd hm (List.not_mem_nil m)
    · intro _
      exact ⟨cur, repo, rfl⟩
  | cons m ms ih =>
    intro cur repo hwf hcur hall
    obtain ⟨mc, hmc⟩ :=
      Option.isSome_iff_exists.mp (hall m (List.mem_cons_self m ms))
    by_cases hmerge : 1 < mc.parents.length
    · have hloop : unapplyLoop v (m :: ms) cur repo =
          some (UnapplyView.rejectMerge, repo) := by
        simp only [unapplyLoop, hmc]
        rw [if_pos hmerge]
      constructor
      · intro _
        exact ⟨repo, hloop⟩
      · intro hno
        have := hno m (List.mem_cons_self m ms) mc hmc
        omega
    · obtain ⟨pc, hpc⟩ := Option.isSome_iff_exists.mp hcur
      have hloop : unapplyLoop v (m :: ms) cur repo =
          unapplyLoop v ms
            (rewrite repo m mc [cur] (v.unapplyTree mc.tree pc.tree)).1
            (rewrite repo m mc [cur] (v.unapplyTree mc.tree pc.tree)).2 := by
        simp only [unapplyLoop, hmc]
        rw [if_neg hmerge]
        simp only [hpc]
      obtain ⟨hwf2, hext2⟩ :=
        rewrite_wf_ext repo m mc [cur] (v.unapplyTree mc.tree pc.tree) hwf
      have hfound :=
        rewrite_found repo m mc [cur] (v.unapplyTree mc.tree pc.tree) hwf hmc
      have hms2 : ∀ m2 ∈ ms,
          (findCommit (rewrite repo m mc [cur]
            (v.unapplyTree mc.tree pc.tree)).2 m2).isSome = true := by
        intro m2 hm2
        obtain ⟨mcO, hmcO⟩ :=
          Option.isSome_iff_exists.mp (hall m2 (List.mem_cons_of_mem _ hm2))
        rw [hext2 m2 mcO hmcO]
        rfl
      obtain ⟨ih1, ih2⟩ := ih _ _ hwf2 hfound hms2
      constructor
      · rintro ⟨m2, hm2, mc2, hmc2, hbig⟩
        rcases List.mem_cons.mp hm2 with rfl | hm2
        · rw [hmc] at hmc2
          injection hmc2 with e
          subst e
          exact absurd hbig hmerge
        · rw [hloop]
          exact ih1 ⟨m2, hm2, mc2, hext2 m2 mc2 hmc2, hbig⟩
      · intro hno
        rw [hloop]
        apply ih2
        intro m2 hm2 mc2 hmc2
        obtain ⟨mcO, hmcO⟩ :=
          Option.isSome_iff_exists.mp (hall m2 (List.mem_cons_of_mem _ hm2))
        have hO2 := hext2 m2 mcO hmcO
        rw [hO2] at hmc2
        injection hmc2 with e
        subst e
        exact hno m2 (List.mem_cons_of_mem _ hm2) mcO hmcO

/-- Claim C6: unapply_view returns NoChanges when old = new; RejectNoFF when
the backward map lacks old or new is not a descendant of old; RejectMerge
when some walked commit in the range has more than one parent; and otherwise
Done with the last rewritten oid.  The reject cases are ordinary return
values, not errors. -/
theorem unapply_outcomes (repo : Repo) (bm : ViewMap) (v : ViewF)
    (old nw : Oid)
    (hwf : RepoWF repo)
    (hcur : optAll (fun cur => (findCommit repo cur).isSome)
      (vmLookup bm old) = true)
    (hwalk : ∀ m ∈ walkHide repo nw old,
      (findCommit repo m).isSome = true) :
    (old = nw → unapply_view repo bm v old nw =
        some (UnapplyView.noChanges, repo)) ∧
    (old ≠ nw → vmLookup bm old = none →
        unapply_view repo bm v old nw =
          some (UnapplyView.rejectNoFF, repo)) ∧
    (old ≠ nw → ∀ cur, vmLookup bm old = some cur →
        descendantOf repo nw old = false →
        unapply_view repo bm v old nw =
          some (UnapplyView.rejectNoFF, repo)) ∧
    (old ≠ nw → ∀ cur, vmLookup bm old = some cur →
        descendantOf repo nw old = true →
        ((∃ m ∈ walkHide repo nw old, ∃ mc, findCommit repo m = some mc ∧
              1 < mc.parents.length) →
            ∃ r2, unapply_view repo bm v old nw =
              some (UnapplyView.rejectMerge, r2)) ∧
        ((∀ m ∈ walkHide repo nw old, ∀ mc, findCommit repo m = some mc →
              mc.parents.length ≤ 1) →
            ∃ r r2, unapply_view repo bm v old nw =
              some (UnapplyView.done r, r2))) := by
  refine ⟨?_, ?_, ?_, ?_⟩
  · intro h
    simp only [unapply_view]
    rw [if_pos h]
  · intro hne hno
    simp only [unapply_view]
    rw [if_neg hne]
    simp only [hno]
  · intro hne cur hcv hdesc
    simp only [unapply_view]
    rw [if_neg hne]
    simp only [hcv, hdesc]
    rw [if_neg Bool.false_ne_true]
  · intro hne cur hcv hdesc
    rw [hcv] at hcur
    have hcur2 : (findCommit repo cur).isSome = true := hcur
    have hloop : unapply_view repo bm v old nw =
        unapplyLoop v (walkHide repo nw old) cur repo := by
      simp only [unapply_view]
      rw [if_neg hne]
      simp only [hcv, hdesc]
      rw [if_true]
    obtain ⟨h1, h2⟩ :=
      unapplyLoop_outcomes v (walkHide repo nw old) cur repo hwf hcur2 hwalk
    constructor
    · intro hx
      obtain ⟨r2, hr2⟩ := h1 hx
      exact ⟨r2, by rw [hloop]; exact hr2⟩
    · intro hx
      obtain ⟨r, r2, hr2⟩ := h2 hx
      exact ⟨r, r2, by rw [hloop]; exact hr2⟩

theorem unapply_outcomes_witness :
    ∃ r r2, unapply_view unapRepo [(2, 1)] rtView 2 3 =
      some (UnapplyView.done r, r2) :=
  ((unapply_outcomes unapRepo [(2, 1)] rtView 2 3 (by decide) (by decide)
      (by decide)).2.2.2 (by decide) 1 (by rfl) (by rfl)).2
    (by
      intro m hm mc hmc
      have hw : walkHide unapRepo 3 2 = [3] := by rfl
      rw [hw] at hm
      rcases List.mem_singleton.mp hm with rfl
      have h3 : findCommit unapRepo 3 = some ⟨11, [2], "q", "q", "n"⟩ := by rfl
      rw [h3] at hmc
      injection hmc with e
      subst e
      decide)

theorem unapplyLoop_roundtrip (v : ViewF) (hrt : ViewRoundTrip v) :
    ∀ ms cur repo, RepoWF repo →
      (findCommit repo cur).isSome = true →
      (∀ m ∈ ms, (findCommit repo m).isSome = true ∧
        ∀ mc, findCommit repo m = some mc → mc.parents.length ≤ 1) →
      ∃ r repo2, unapplyLoop v ms cur repo =
          some (UnapplyView.done r, repo2) ∧
        RepoWF repo2 ∧ RExt repo repo2 ∧
        (∀ o cm, findCommit repo2 o = some cm → findCommit repo o = none →
          ∃ m mc, m ∈ ms ∧ findCommit repo m = some mc ∧
            v.applyToTree cm.tree = mc.tree) := by
  intro ms
  induction ms with
  | nil =>
    intro cur repo hwf hcur hms
    refine ⟨cur, repo, rfl, hwf, rext_refl _, ?_⟩
    intro o cm h1 h2
    rw [h1] at h2
    cases h2
  | cons m ms ih =>
    intro cur repo hwf hcur hms
    obtain ⟨mc, hmc⟩ :=
      Option.isSome_iff_exists.mp (hms m (List.mem_cons_self m ms)).1
    have hle : mc.parents.length ≤ 1 :=
      (hms m (List.mem_cons_self m ms)).2 mc hmc
    have hnm : ¬1 < mc.parents.length := by omega
    obtain ⟨pc, hpc⟩ := Option.isSome_iff_exists.mp hcur
    have hloop : unapplyLoop v (m :: ms) cur repo =
        unapplyLoop v ms
          (rewrite repo m mc [cur] (v.unapplyTree mc.tree pc.tree)).1
          (rewrite repo m mc [cur] (v.unapplyTree mc.tree pc.tree)).2 := by
      simp only [unapplyLoop, hmc]
      rw [if_neg hnm]
      simp only [hpc]
    obtain ⟨hwf2, hext2⟩ :=
      rewrite_wf_ext repo m mc [cur] (v.unapplyTree mc.tree pc.tree) hwf
    have hfound :=
      rewrite_found repo m mc [cur] (v.unapplyTree mc.tree pc.tree) hwf hmc
    have hms2 : ∀ m2 ∈ ms,
        (findCommit (rewrite repo m mc [cur]
          (v.unapplyTree mc.tree pc.tree)).2 m2).isSome = true ∧
        ∀ mc2, findCommit (rewrite repo m mc [cur]
          (v.unapplyTree mc.tree pc.tree)).2 m2 = some mc2 →
          mc2.parents.length ≤ 1 := by
      intro m2 hm2
      obtain ⟨mcO, hmcO⟩ :=
        Option.isSome_iff_exists.mp (hms m2 (List.mem_cons_of_mem _ hm2)).1
      have hO2 := hext2 m2 mcO hmcO
      constructor
      · rw [hO2]; rfl
      · intro mc2 hmc2
        rw [hO2] at hmc2
        injection hmc2 with e
        subst e
        exact (hms m2 (List.mem_cons_of_mem _ hm2)).2 mcO hmcO
    obtain ⟨r, repo2, hl2, hwfF, hextF, hchar⟩ := ih _ _ hwf2 hfound hms2
    refine ⟨r, repo2, by rw [hloop]; exact hl2, hwfF,
      rext_trans hext2 hextF, ?_⟩
    intro o cm hin2 hinO
    by_cases hnew : findCommit (rewrite repo m mc [cur]
        (v.unapplyTree mc.tree pc.tree)).2 o = none
    · obtain ⟨m2, mc2, hm2, hmc2, htree⟩ := hchar o cm hin2 hnew
      obtain ⟨mcO, hmcO⟩ :=
        Option.isSome_iff_exists.mp (hms m2 (List.mem_cons_of_mem _ hm2)).1
      have hO2 := hext2 m2 mcO hmcO
      rw [hO2] at hmc2
      injection hmc2 with e
      subst e
      exact ⟨m2, mcO, List.mem_cons_of_mem _ hm2, hmcO, htree⟩
    · obtain ⟨cm2, hcm2⟩ := Option.ne_none_iff_exists'.mp hnew
      have hcm2eq : cm2 = ⟨v.unapplyTree mc.tree pc.tree, [cur], mc.author,
          mc.committer, mc.message⟩ :=
        rewrite_new repo m mc [cur] (v.unapplyTree mc.tree pc.tree) o cm2
          hcm2 hinO
      have hfin := hextF o cm2 hcm2
      rw [hin2] at hfin
      injection hfin with e
      refine ⟨m, mc, List.mem_cons_self m ms, hmc, ?_⟩
      rw [e, hcm2eq]
      exact hrt mc.tree pc.tree

/-- Claim C7 (spec-modelled): when new descends from old through
single-parent commits only and the backward map knows old, unapply_view
returns Done, and every commit it writes has a tree that the filter maps
back to the tree of the corresponding walked projected commit (the
round-trip contract of the spec's repopulated_tree). -/
theorem unapply_round_trip (repo : Repo) (bm : ViewMap) (v : ViewF)
    (old nw cur : Oid)
    (hrt : ViewRoundTrip v)
    (hwf : RepoWF repo)
    (hne : old ≠ nw)
    (hbm : vmLookup bm old = some cur)
    (hcur : (findCommit repo cur).isSome = true)
    (hdesc : descendantOf repo nw old = true)
    (hwalk : ∀ m ∈ walkHide repo nw old,
      (findCommit repo m).isSome = true ∧
      optAll (fun mc => decide (mc.parents.length ≤ 1))
        (findCommit repo m) = true) :
    ∃ r repo2, unapply_view repo bm v old nw =
        some (UnapplyView.done r, repo2) ∧
      ∀ o cm, findCommit repo2 o = some cm → findCommit repo o = none →
        ∃ m mc, m ∈ walkHide repo nw old ∧ findCommit repo m = some mc ∧
          v.applyToTree cm.tree = mc.tree := by
  have hwalk2 : ∀ m ∈ walkHide repo nw old,
      (findCommit repo m).isSome = true ∧
      ∀ mc, findCommit repo m = some mc → mc.parents.length ≤ 1 := by
    intro m hm
    refine ⟨(hwalk m hm).1, ?_⟩
    intro mc hmc
    have h2 := (hwalk m hm).2
    rw [hmc] at h2
    exact of_decide_eq_true h2
  obtain ⟨r, repo2, hl, hwf2, hext, hchar⟩ :=
    unapplyLoop_roundtrip v hrt (walkHide repo nw old) cur repo hwf hcur
      hwalk2
  refine ⟨r, repo2, ?_, fun o cm h1 h2 => hchar o cm h1 h2⟩
  simp only [unapply_view]
  rw [if_neg hne]
  simp only [hbm, hdesc]
  rw [if_true]
  exact hl

theorem unapply_round_trip_witness :
    ∃ r repo2, unapply_view unapRepo [(2, 1)] rtView 2 3 =
        some (UnapplyView.done r, repo2) ∧
      ∀ o cm, findCommit repo2 o = some cm → findCommit unapRepo o = none →
        ∃ m mc, m ∈ walkHide unapRepo 3 2 ∧ findCommit unapRepo m = some mc ∧
          rtView.applyToTree cm.tree = mc.tree :=
  unapply_round_trip unapRepo [(2, 1)] rtView 2 3 1 (fun _ _ => rfl)
    (by decide) (by decide) (by rfl) (by rfl) (by rfl) (by decide)

/-! ## C8: the marker writer -/

theorem charListLe_total : ∀ a b : List Char,
    charListLe a b = true ∨ charListLe b a = true := by
  intro a
  induction a with
  | nil => intro b; left; rfl
  | cons x xs ih =>
    intro b
    cases b with
    | nil => right; rfl
    | cons y ys =>
      simp only [charListLe]
      rcases Nat.lt_trichotomy x.toNat y.toNat with h | h | h
      · left; rw [if_pos h]
      · rw [if_neg (by omega), if_neg (by omega), if_neg (by omega),
          if_neg (by omega)]
        exact ih ys
      · right; rw [if_pos h]

theorem charListLe_trans : ∀ a b c : List Char, charListLe a b = true →
    charListLe b c = true → charListLe a c = true := by
  intro a
  induction a with
  | nil => intro b c _ _; rfl
  | cons x xs ih =>
    intro b c h1 h2
    cases b with
    | nil => exact Bool.noConfusion h1
    | cons y ys =>
      cases c with
      | nil => exact Bool.noConfusion h2
      | cons z zs =>
        simp only [charListLe] at h1 h2 ⊢
        rcases Nat.lt_trichotomy x.toNat y.toNat with hxy | hxy | hxy <;>
          rcases Nat.lt_trichotomy y.toNat z.toNat with hyz | hyz | hyz
        · rw [if_pos (by omega)]
        · rw [if_pos (by omega)]
        · rw [if_neg (by omega), if_pos (by omega)] at h2
          exact Bool.noConfusion h2
        · rw [if_pos (by omega)]
        · rw [if_neg (by omega), if_neg (by omega)] at h1
          rw [if_neg (by omega), if_neg (by omega)] at h2
          rw [if_neg (by omega), if_neg (by omega)]
          exact ih ys zs h1 h2
        · rw [if_neg (by omega), if_pos (by omega)] at h2
          exact Bool.noConfusion h2
        · rw [if_neg (by omega), if_pos (by omega)] at h1
          exact Bool.noConfusion h1
        · rw [if_neg (by omega), if_pos (by omega)] at h1
          exact Bool.noConfusion h1
        · rw [if_neg (by omega), if_pos (by omega)] at h1
          exact Bool.noConfusion h1

theorem charListLe_antisymm : ∀ a b : List Char, charListLe a b = true →
    charListLe b a = true → a = b := by
  intro a
  induction a with
  | nil =>
    intro b h1 h2
    cases b with
    | nil => rfl
    | cons y ys => exact Bool.noConfusion h2
  | cons x xs ih =>
    intro b h1 h2
    cases b with
    | nil => exact Bool.noConfusion h1
    | cons y ys =>
      simp only [charListLe] at h1 h2
      rcases Nat.lt_trichotomy x.toNat y.toNat with h | h | h
      · rw [if_neg (by omega), if_pos (by omega)] at h2
        exact Bool.noConfusion h2
      · rw [if_neg (by omega), if_neg (by omega)] at h1
        rw [if_neg (by omega), if_neg (by omega)] at h2
        have hxy : x = y := Char.eq_of_val_eq (UInt32.ext h)
        rw [hxy, ih ys h1 h2]
      · rw [if_neg (by omega), if_pos (by omega)] at h1
        exact Bool.noConfusion h1

theorem strLe_total (a b : String) : strLe a b = true ∨ strLe b a = true :=
  charListLe_total a.data b.data

theorem strLe_trans {a b c : String} (h1 : strLe a b = true)
    (h2 : strLe b c = true) : strLe a c = true :=
  charListLe_trans a.data b.data c.data h1 h2

theorem strLe_antisymm {a b : String} (h1 : strLe a b = true)
    (h2 : strLe b a = true) : a = b :=
  String.ext (charListLe_antisymm a.data b.data h1 h2)

theorem insertLine_mem : ∀ (l : List String) (x s : String),
    s ∈ insertLine x l ↔ s = x ∨ s ∈ l := by
  intro l
  induction l with
  | nil => intro x s; simp [insertLine]
  | cons y ys ih =>
    intro x s
    simp only [insertLine]
    by_cases h : strLe x y = true
    · rw [if_pos h]
      simp [List.mem_cons]
    · rw [if_neg h]
      simp only [List.mem_cons, ih x s]
      tauto

theorem insertLine_sorted : ∀ (l : List String) (x : String), SortedLe l →
    SortedLe (insertLine x l) := by
  intro l
  induction l with
  | nil => intro x _; simp [insertLine, SortedLe]
  | cons y ys ih =>
    intro x hs
    rw [SortedLe, List.pairwise_cons] at hs
    obtain ⟨hy, hys⟩ := hs
    simp only [insertLine]
    by_cases h : strLe x y = true
    · rw [if_pos h]
      rw [SortedLe, List.pairwise_cons]
      constructor
      · intro s hsm
        rcases List.mem_cons.mp hsm with rfl | hsm
        · exact h
        · exact strLe_trans h (hy s hsm)
      · rw [List.pairwise_cons]
        exact ⟨hy, hys⟩
    · rw [if_neg h]
      have hyx : strLe y x = true := by
        rcases strLe_total x y with h2 | h2
        · exact absurd h2 h
        · exact h2
      rw [SortedLe, List.pairwise_cons]
      constructor
      · intro s hsm
        rcases (insertLine_mem ys x s).mp hsm with rfl | hsm
        · exact hyx
        · exact hy s hsm
      · exact ih x hys

theorem sortLines_mem : ∀ (l : List String) (s : String),
    s ∈ sortLines l ↔ s ∈ l := by
  intro l
  induction l with
  | nil => intro s; simp [sortLines]
  | cons x xs ih =>
    intro s
    simp only [sortLines]
    rw [insertLine_mem, ih, List.mem_cons]

theorem sortLines_sorted : ∀ l : List String, SortedLe (sortLines l) := by
  intro l
  induction l with
  | nil => simp [sortLines, SortedLe]
  | cons x xs ih => exact insertLine_sorted _ x ih

theorem dedupAdj_cons_cons (a b : String) (t : List String) :
    dedupAdj (a :: b :: t) =
      if a = b then dedupAdj (b :: t) else a :: dedupAdj (b :: t) := rfl

theorem dedupAdj_mem : ∀ (l : List String) (s : String),
    s ∈ dedupAdj l ↔ s ∈ l := by
  intro l
  induction l with
  | nil => intro s; simp [dedupAdj]
  | cons a rest ih =>
    intro s
    cases rest with
    | nil => simp [dedupAdj]
    | cons b t =>
      rw [dedupAdj_cons_cons]
      by_cases hab : a = b
      · rw [if_pos hab]
        rw [ih s]
        subst hab
        constructor
        · intro hm
          exact List.mem_cons_of_mem _ hm
        · intro hm
          rcases List.mem_cons.mp hm with rfl | hm
          · exact List.mem_cons_self _ _
          · exact hm
      · rw [if_neg hab]
        simp only [List.mem_cons, ih s]

theorem dedupAdj_sorted : ∀ l : List String, SortedLe l →
    SortedLe (dedupAdj l) := by
  intro l
  induction l with
  | nil => intro _; simp [dedupAdj, SortedLe]
  | cons a rest ih =>
    intro hs
    rw [SortedLe, List.pairwise_cons] at hs
    obtain ⟨ha, hrest⟩ := hs
    cases rest with
    | nil => simp [dedupAdj, SortedLe]
    | cons b t =>
      rw [dedupAdj_cons_cons]
      by_cases hab : a = b
      · rw [if_pos hab]
        exact ih hrest
      · rw [if_neg hab]
        rw [SortedLe, List.pairwise_cons]
        constructor
        · intro s hsm
          exact ha s ((dedupAdj_mem _ s).mp hsm)
        · exact ih hrest

theorem dedupAdj_nodup : ∀ l : List String, SortedLe l →
    (dedupAdj l).Nodup := by
  intro l
  induction l with
  | nil => intro _; simp [dedupAdj]
  | cons a rest ih =>
    intro hs
    rw [SortedLe, List.pairwise_cons] at hs
    obtain ⟨ha, hrest⟩ := hs
    cases rest with
    | nil => simp [dedupAdj]
    | cons b t =>
      rw [dedupAdj_cons_cons]
      by_cases hab : a = b
      · rw [if_pos hab]
        exact ih hrest
      · rw [if_neg hab]
        rw [List.nodup_cons]
        constructor
        · intro hmem
          rcases List.mem_cons.mp ((dedupAdj_mem _ a).mp hmem) with h | h
          · exact hab h
          · have h1 : strLe a a = true := by
              rcases strLe_total a a with h2 | h2 <;> exact h2
            have hba : strLe b a = true := by
              rw [List.pairwise_cons] at hrest
              exact hrest.1 a h
            have hab2 : strLe a b = true := ha b (List.mem_cons_self b t)
            exact hab (strLe_antisymm hab2 hba)
        · exact ih hrest

theorem mapFormat_mem (ops : MarkerOps) : ∀ (data news : List String),
    mapFormat ops data = some news →
    ∀ l ∈ news, ∃ d ∈ data, ∃ j, ops.canon d = some j ∧
      l = strCat (ops.hashStr j) (strCat (":") j) := by
  intro data
  induction data with
  | nil =>
    intro news h l hl
    cases h
    exact absurd hl (List.not_mem_nil l)
  | cons d ds ih =>
    intro news h l hl
    simp only [mapFormat] at h
    cases hfm : format_marker ops d with
    | none => rw [hfm] at h; exact Option.noConfusion h
    | some x =>
      rw [hfm] at h
      cases hrec : mapFormat ops ds with
      | none => rw [hrec] at h; exact Option.noConfusion h
      | some ls =>
        rw [hrec] at h
        injection h with h
        subst h
        rcases List.mem_cons.mp hl with rfl | hl
        · simp only [format_marker] at hfm
          cases hc : ops.canon d with
          | none => rw [hc] at hfm; exact Option.noConfusion hfm
          | some j =>
            rw [hc] at hfm
            injection hfm with hfm
            exact ⟨d, List.mem_cons_self d ds, j, hc, hfm.symm⟩
        · obtain ⟨d2, hd2, j, hj, hlj⟩ := ih ls hrec l hl
          exact ⟨d2, List.mem_cons_of_mem _ hd2, j, hj, hlj⟩

/-- Claim C8: each datum is formatted as hash-colon-canonical-json, and the
blob written for the path is exactly the lexicographically sorted,
de-duplicated union of the previously stored non-empty lines and the newly
formatted lines. -/
theorem marker_write_postcondition (ops : MarkerOps) (prev : String)
    (data news : List String)
    (h : mapFormat ops data = some news) :
    ∃ L, metaEntryLines ops prev data = some L ∧
      metaEntryContent ops prev data = some (joinWith ("\x0A") L) ∧
      SortedLe L ∧ L.Nodup ∧
      (∀ s, s ∈ L ↔ s ∈ splitLines prev ∨ s ∈ news) ∧
      (∀ l ∈ news, ∃ d ∈ data, ∃ j, ops.canon d = some j ∧
        l = strCat (ops.hashStr j) (strCat (":") j)) := by
  refine ⟨dedupAdj (sortLines (splitLines prev ++ news)), ?_, ?_, ?_, ?_,
    ?_, ?_⟩
  · simp only [metaEntryLines, h]
  · simp only [metaEntryContent, metaEntryLines, h]
  · exact dedupAdj_sorted _ (sortLines_sorted _)
  · exact dedupAdj_nodup _ (sortLines_sorted _)
  · intro s
    rw [dedupAdj_mem, sortLines_mem, List.mem_append]
  · exact mapFormat_mem ops data news h

theorem marker_write_postcondition_witness :
    ∃ L, metaEntryLines mOps "b\x0Ab" ["b", "a"] = some L ∧
      metaEntryContent mOps "b\x0Ab" ["b", "a"] =
        some (joinWith ("\x0A") L) ∧
      SortedLe L ∧ L.Nodup ∧
      (∀ s, s ∈ L ↔ s ∈ splitLines "b\x0Ab" ∨ s ∈ ["h:b", "h:a"]) ∧
      (∀ l ∈ ["h:b", "h:a"], ∃ d ∈ ["b", "a"], ∃ j,
        mOps.canon d = some j ∧
        l = strCat (mOps.hashStr j) (strCat (":") j)) :=
  marker_write_postcondition mOps "b\x0Ab" ["b", "a"] ["h:b", "h:a"] (by rfl)

/-! ## C9: the marker reader -/

/-- Counterexample to claim C9: the stored line aa:x has a payload after the
first colon that is not syntactically valid JSON, yet the line is not
skipped: it contributes one document (with the zero oid and the default
value) to the returned list. -/
theorem marker_read_counterexample :
    markersData rOps "aa:x" = [(0, none)] ∧
    (markersData rOps "aa:x").length = 1 ∧
    rOps.parseJson "x" = none :=
  ⟨rfl, rfl, rfl⟩

/-- Claim C9 as amended: the reader skips no stored line.  Every non-empty
line yields exactly one document; an unparsable oid prefix degrades to the
zero oid and a missing or unparsable JSON payload degrades to the default
value, rather than removing the record. -/
theorem marker_read_keeps_invalid_lines {JV : Type} (ops : ReadOps JV)
    (prev : String) :
    (markersData ops prev).length = (splitLines prev).length ∧
    (∀ l ∈ splitLines prev,
      ((ops.parseOid (splitFirstColon l).1).getD 0,
       (splitFirstColon l).2.bind ops.parseJson) ∈ markersData ops prev) ∧
    (∀ doc ∈ markersData ops prev, ∃ l ∈ splitLines prev,
      doc = ((ops.parseOid (splitFirstColon l).1).getD 0,
             (splitFirstColon l).2.bind ops.parseJson)) := by
  refine ⟨?_, ?_, ?_⟩
  · simp [markersData]
  · intro l hl
    simp only [markersData]
    exact List.mem_map_of_mem _ hl
  · intro doc hdoc
    simp only [markersData] at hdoc
    obtain ⟨l, hl, heq⟩ := List.mem_map.mp hdoc
    exact ⟨l, hl, heq.symm⟩

theorem marker_read_keeps_invalid_lines_witness :
    (markersData rOps "aa:1").length = (splitLines "aa:1").length ∧
    ((0 : Oid), (some 1 : Option Nat)) ∈ markersData rOps "aa:1" :=
  ⟨(marker_read_keeps_invalid_lines rOps "aa:1").1,
   (marker_read_keeps_invalid_lines rOps "aa:1").2.1 "aa:1" (by decide)⟩

/-! ## C10: the unchecked backward lookup -/

/-- Counterexample to claim C10's coalescing clause: whenever the coalesce
branch is reached (all transformed parents were filtered away without a
panic, the transformed parent list being non-empty), the first transformed
parent - exactly the oid that coalescing records in the forward map - is
guaranteed to have a backward entry, because dropping a parent requires the
backward lookup to have succeeded.  Parents recorded by coalescing therefore
can never make the unchecked backward lookup fail. -/
theorem coalesce_backward_counterexample :
    ¬∃ (repo : Repo) (bw : ViewMap) (ctree ntree : Oid) (t0 : Oid × Commit)
      (ts : List (Oid × Commit)),
      filterParents repo bw ctree ntree (t0 :: ts) = some [] ∧
      vmLookup bw t0.1 = none := by
  rintro ⟨repo, bw, ctree, ntree, t0, ts, hfil, hnone⟩
  simp only [filterParents] at hfil
  cases hstep : filterStep repo bw ctree ntree t0 with
  | none => rw [hstep] at hfil; exact Option.noConfusion hfil
  | some b =>
    rw [hstep] at hfil
    cases b with
    | true =>
      cases hrec : filterParents repo bw ctree ntree ts with
      | none => rw [hrec] at hfil; exact Option.noConfusion hfil
      | some fs =>
        rw [hrec] at hfil
        injection hfil with hfil
        exact List.noConfusion hfil
    | false =>
      simp only [filterStep] at hstep
      by_cases h1 : ntree ≠ t0.2.tree
      · rw [if_pos h1] at hstep
        injection hstep with e
        exact Bool.noConfusion e
      · rw [if_neg h1] at hstep
        rw [hnone] at hstep
        exact Option.noConfusion hstep

theorem filterParents_total : ∀ (repo : Repo) (bw : ViewMap)
    (ctree ntree : Oid) (ps : List (Oid × Commit)),
    (∀ p ∈ ps, p.2.tree = ntree →
      ∃ orig oc, vmLookup bw p.1 = some orig ∧
        findCommit repo orig = some oc) →
    (filterParents repo bw ctree ntree ps).isSome = true := by
  intro repo bw ctree ntree ps
  induction ps with
  | nil => intro _; rfl
  | cons p ps ih =>
    intro hpre
    simp only [filterParents]
    have hs : ∃ b, filterStep repo bw ctree ntree p = some b := by
      simp only [filterStep]
      by_cases h1 : ntree ≠ p.2.tree
      · rw [if_pos h1]
        exact ⟨true, rfl⟩
      · rw [if_neg h1]
        have hp2 : p.2.tree = ntree := (not_ne_iff.mp h1).symm
        obtain ⟨orig, oc, hlo, hfo⟩ := hpre p (List.mem_cons_self p ps) hp2
        simp only [hlo, hfo]
        exact ⟨_, rfl⟩
    obtain ⟨b, hb⟩ := hs
    rw [hb]
    have htail := ih (fun q hq hqt => hpre q (List.mem_cons_of_mem _ hq) hqt)
    cases b with
    | true =>
      cases hrec : filterParents repo bw ctree ntree ps with
      | none => rw [hrec] at htail; exact Bool.noConfusion htail
      | some fs => simp only [hrec, Option.isSome_some]
    | false => exact htail

/-- Claim C10 as amended: when a transformed parent's tree equals the
filtered tree, the backward map is indexed without a presence check and a
missing entry is the panic branch; the filtering loop is total whenever
every such parent has a backward entry whose original commit is present;
and the panic branch is reachable through a parent projected under a
Transform instruction (with fresh, discarded caches): the concrete
projection below panics.  (Parents recorded by coalescing cannot reach the
panic branch; see the counterexample theorem.) -/
theorem backward_lookup_precondition :
    (∀ (repo : Repo) (bw : ViewMap) (ctree ntree : Oid) (p : Oid × Commit),
      p.2.tree = ntree → vmLookup bw p.1 = none →
      filterStep repo bw ctree ntree p = none) ∧
    (∀ (repo : Repo) (bw : ViewMap) (ctree ntree : Oid)
      (ps : List (Oid × Commit)),
      (∀ p ∈ ps, p.2.tree = ntree →
        ∃ orig oc, vmLookup bw p.1 = some orig ∧
          findCommit repo orig = some oc) →
      (filterParents repo bw ctree ntree ps).isSome = true) ∧
    applyViewCached envT 5 vView 2
      { repo := chainRepo, forward := [], backward := [] } = none := by
  refine ⟨?_, filterParents_total, by rfl⟩
  intro repo bw ctree ntree p hp hnone
  simp only [filterStep]
  rw [if_neg (fun hne => hne hp.symm)]
  rw [hnone]

theorem backward_lookup_precondition_witness :
    filterStep oneRepo [] 7 9 (4, ⟨9, [], "w", "w", "w"⟩) = none ∧
    (filterParents oneRepo [(4, 5)] 7 9
      [(4, ⟨9, [], "w", "w", "w"⟩)]).isSome = true := by
  constructor
  · exact backward_lookup_precondition.1 oneRepo [] 7 9
      (4, ⟨9, [], "w", "w", "w"⟩) rfl rfl
  · exact backward_lookup_precondition.2.1 oneRepo [(4, 5)] 7 9
      [(4, ⟨9, [], "w", "w", "w"⟩)]
      (by
        intro p hp hpt
        rcases List.mem_singleton.mp hp with rfl
        exact ⟨5, ⟨7, [], "a", "a", "m"⟩, rfl, rfl⟩)
